import Mathlib

/-!
Shallow embedding of the template compiler and renderer of
`src/parser.ts` (template parser with YAML frontmatter support).

Strings are modelled as `List Char` (JS strings are sequences of code
units; all inputs of interest here are plain characters).  The external
YAML library (`YAML.parse` from the `yaml` npm package) is not part of
this repository; it is modelled as an oracle parameter: `Except.error`
models a thrown exception, `Except.ok none` models a `null` / non-object
result, and `Except.ok (some entries)` models a parsed object with its
entries in insertion order.  `console.warn` / `console.error` are side
effects; the warning condition of `buildASTFromBody` is exposed as the
boolean field `warned` of the result.
-/

namespace CursorCmd

/-- The JS `\s` class (and the character set of `String.prototype.trim`):
whitespace and line terminators. -/
def wsChar (c : Char) : Bool :=
  c = ' ' || c = '\t' || c = '\n' || c = '\r' ||
  c = Char.ofNat 0x0B || c = Char.ofNat 0x0C || c = Char.ofNat 0xA0 ||
  c = Char.ofNat 0x1680 || (0x2000 ≤ c.toNat && c.toNat ≤ 0x200A) ||
  c = Char.ofNat 0x2028 || c = Char.ofNat 0x2029 || c = Char.ofNat 0x202F ||
  c = Char.ofNat 0x205F || c = Char.ofNat 0x3000 || c = Char.ofNat 0xFEFF

/-- JS `String.prototype.trim`: drop leading and trailing whitespace. -/
def jsTrim (s : List Char) : List Char :=
  ((s.dropWhile wsChar).reverse.dropWhile wsChar).reverse

/-- One match of `PLACEHOLDER_PATTERN = /#\{(\?|\/)?([^}?]*?)(\?)?}/g`:
`pre` is capture group 1 (`'?'` or `'/'` or absent), `name` is group 2
(raw, untrimmed), `opt` records whether group 3 (the trailing `'?'`)
matched, `full` is the full matched text, `start`/`stop` are
`match.index` and `match.index + match[0].length`. -/
structure Mark where
  pre : Option Char
  name : List Char
  opt : Bool
  full : List Char
  start : Nat
  stop : Nat
deriving DecidableEq, Repr

/-- Attempt to match the tail of `PLACEHOLDER_PATTERN` (everything after
the literal `#{`) at the beginning of `rest`.  Returns the three capture
groups and the number of characters of `rest` consumed.  The optional
group `(\?|\/)?` is committed greedily; the lazy group `[^}?]*?` extends
to the first `}` / `?}`; if the first `?` reached is not followed by
`}`, no match is possible at this position (backtracking over group 1
never rescues the attempt, since group 2 cannot contain `?` and a
leading `/` may equally be consumed by group 2). -/
def tryMarker (rest : List Char) : Option (Option Char × List Char × Bool × Nat) :=
  let (pre, r1, n1) :=
    match rest with
    | '?' :: t => (some '?', t, 1)
    | '/' :: t => (some '/', t, 1)
    | _ => (none, rest, 0)
  let name := r1.takeWhile (fun c => !(c = '}' || c = '?'))
  match r1.drop name.length with
  | '}' :: _ => some (pre, name, false, n1 + name.length + 1)
  | '?' :: '}' :: _ => some (pre, name, true, n1 + name.length + 2)
  | _ => none

/-- Prepend a literal character to a tokenization result: it joins the
preceding-text run of the first marker, or the trailing text if there is
no further marker. -/
def consText (c : Char) :
    List (List Char × Mark) × List Char → List (List Char × Mark) × List Char
  | ([], trail) => ([], c :: trail)
  | ((t, m) :: ps, trail) => (((c :: t, m) :: ps), trail)

/-- Fuel-indexed scanner implementing `body.matchAll(PLACEHOLDER_PATTERN)`
together with the in-between slices: returns the list of
(preceding text, match) pairs and the trailing text after the last
match.  `i` is the current string index (used for `match.index`).
The fuel only serves structural termination; `fuel > cs.length` is
always sufficient. -/
def tokenizeF : Nat → Nat → List Char → List (List Char × Mark) × List Char
  | 0, _, _ => ([], [])
  | _ + 1, _, [] => ([], [])
  | fuel + 1, i, c :: cs1 =>
    if c = '#' ∧ cs1.take 1 = ['{'] then
      match tryMarker (cs1.drop 1) with
      | some (pre, name, opt, n) =>
        let m : Mark := { pre := pre, name := name, opt := opt,
                          full := '#' :: '{' :: (cs1.drop 1).take n,
                          start := i, stop := i + 2 + n }
        let r := tokenizeF fuel (i + 2 + n) ((cs1.drop 1).drop n)
        ((([], m) :: r.1), r.2)
      | none => consText c (tokenizeF fuel (i + 1) cs1)
    else consText c (tokenizeF fuel (i + 1) cs1)

/-- `body.matchAll(PLACEHOLDER_PATTERN)` with in-between text slices. -/
def tokenize (i : Nat) (cs : List Char) : List (List Char × Mark) × List Char :=
  tokenizeF (cs.length + 1) i cs

/-- A frontmatter entry `{ value: string; optional: boolean }`. -/
structure FMEntry where
  value : List Char
  optional : Bool
deriving DecidableEq, Repr

/-- The frontmatter map `Record<string, { value; optional }>`,
as an insertion-ordered association list with unique keys. -/
abbrev FM := List (List Char × FMEntry)

/-- JS object property lookup on an association list. -/
def alookup (k : List Char) : List (List Char × α) → Option α
  | [] => none
  | (k2, v) :: t => if k2 = k then some v else alookup k t

/-- JS object property assignment: overwrite in place if the key exists,
otherwise append (insertion order). -/
def objSet (k : List Char) (v : α) : List (List Char × α) → List (List Char × α)
  | [] => [(k, v)]
  | (k2, v2) :: t => if k2 = k then (k2, v) :: t else (k2, v2) :: objSet k v t

/-- `Placeholder` of `types.ts` (the `type: 'placeholder'` tag is
implicit in the constructor). -/
structure Placeholder where
  name : List Char
  description : Option (List Char)
  start : Option Nat
  stop : Option Nat
  optional : Bool
deriving DecidableEq, Repr

/-- `ASTNode = string | Placeholder | ConditionalBlock` of `types.ts`;
`block` is `ConditionalBlock { type: 'block'; variable; content }`
(the field `variable` is named `var` because `variable` is a Lean
keyword). -/
inductive ASTNode where
  | text (s : List Char)
  | ph (p : Placeholder)
  | block (v : List Char) (content : List ASTNode)

/-- A `BlockContext = { variable?: string; content: ASTNode[] }` frame of
the scope stack. -/
structure Frame where
  var : Option (List Char)
  content : List ASTNode

/-- Mutable state of the `buildASTFromBody` loop: the (possibly
synthesized-into) frontmatter map, the scope stack (head = innermost
frame, last = root), and the `seenVariables` insertion-ordered map. -/
structure BuildState where
  fm : FM
  stack : List Frame
  seen : List (List Char × Placeholder)

/-- Push a node at the end of the top (innermost) frame's content. -/
def pushNode (st : List Frame) (n : ASTNode) : List Frame :=
  match st with
  | [] => []
  | f :: fs => { f with content := f.content ++ [n] } :: fs

/-- The synthesized description of an undeclared block-control variable. -/
def condBlockDesc (tn : List Char) : List Char :=
  "Conditional block for ".toList ++ tn

/-- `handleBlockStart` for a `#{?variable}` match. -/
def handleBlockStart (s : BuildState) (m : Mark) : BuildState :=
  let tn := jsTrim m.name
  if tn = [] then
    { s with stack := pushNode s.stack (.text m.full) }
  else
    let fm' :=
      if alookup tn s.fm = none then
        s.fm ++ [(tn, { value := condBlockDesc tn, optional := true })]
      else s.fm
    { s with fm := fm', stack := Frame.mk (some tn) [] :: s.stack }

/-- `handleBlockEnd` for a `#{/variable}` or `#{/}` match. -/
def handleBlockEnd (s : BuildState) (m : Mark) : BuildState :=
  let tn := jsTrim m.name
  match s.stack with
  | closed :: parent :: rest =>
    match closed.var with
    | none => { s with stack := pushNode s.stack (.text m.full) }
    | some v =>
      if tn ≠ [] ∧ tn ≠ v then
        { s with stack := pushNode s.stack (.text m.full) }
      else
        let blk := ASTNode.block v closed.content
        let stack' := pushNode (parent :: rest) blk
        let seen' :=
          if alookup v s.seen = none then
            s.seen ++ [(v, { name := v,
                             description := (alookup v s.fm).map (·.value),
                             start := none, stop := none, optional := true })]
          else s.seen
        { s with stack := stack', seen := seen' }
  | _ => { s with stack := pushNode s.stack (.text m.full) }

/-- `handlePlaceholder` for a plain `#{variable}` / `#{variable?}` match. -/
def handlePlaceholder (s : BuildState) (m : Mark) : BuildState :=
  let isOptional := m.opt
  let tn := jsTrim m.name
  if tn = [] then
    { s with stack := pushNode s.stack (.text m.full) }
  else
    match alookup tn s.fm with
    | none => { s with stack := pushNode s.stack (.text m.full) }
    | some entry =>
      let p : Placeholder := { name := tn, description := some entry.value,
                               start := some m.start, stop := some m.stop,
                               optional := isOptional || entry.optional }
      let stack' := pushNode s.stack (.ph p)
      let seen' :=
        if alookup tn s.seen = none then s.seen ++ [(tn, p)] else s.seen
      { s with stack := stack', seen := seen' }

/-- One iteration of the match loop: flush the preceding text into the
current (top) frame, then dispatch on the marker's group-1 value. -/
def step (s : BuildState) (pm : List Char × Mark) : BuildState :=
  let s :=
    if pm.1 ≠ [] then { s with stack := pushNode s.stack (.text pm.1) } else s
  let m := pm.2
  if m.pre = some '?' then handleBlockStart s m
  else if m.pre = some '/' then handleBlockEnd s m
  else handlePlaceholder s m

/-- The initial loop state: root frame with no variable, empty `seen`. -/
def initState (fm : FM) : BuildState := ⟨fm, [⟨none, []⟩], []⟩

/-- The state after the whole scan: fold the match loop and flush the
remaining text into the top frame. -/
def scanState (body : List Char) (fm : FM) : BuildState :=
  let r := tokenize 0 body
  let st := r.1.foldl step (initState fm)
  if r.2 ≠ [] then { st with stack := pushNode st.stack (.text r.2) } else st

/-- Result of `buildASTFromBody`; `warned` records whether the
unclosed-block `console.warn` fired. -/
structure BuildResult where
  ast : List ASTNode
  vars : List Placeholder
  warned : Bool

/-- `blockStack[0]` (the root frame; my stack is reversed, so the last). -/
def lastFrame (fs : List Frame) : Frame := fs.getLastD ⟨none, []⟩

/-- The literal reconstruction of an opening marker for an unclosed
frame. -/
def blockOpenMarker (v : List Char) : List Char :=
  '#' :: '{' :: '?' :: (v ++ ['}'])

/-- `buildASTFromBody(body, frontmatter)`. -/
def buildASTFromBody (body : List Char) (fm : FM) : BuildResult :=
  let st := scanState body fm
  let unclosed := st.stack.length - 1
  let ast :=
    if unclosed > 0 then
      (st.stack.dropLast.flatMap fun b =>
        (match b.var with
         | some v => [ASTNode.text (blockOpenMarker v)]
         | none => []) ++ b.content)
      ++ (lastFrame st.stack).content
    else
      (lastFrame st.stack).content
  { ast := ast, vars := st.seen.map (·.2), warned := unclosed > 0 }

/-- A property entry of the generated JSON schema; the constant
`type: 'string'` tag is implicit. -/
structure PropEntry where
  description : List Char
deriving DecidableEq, Repr

/-- The generated JSON schema (`type: 'object'` tag implicit). -/
structure JSONSchema where
  properties : List (List Char × PropEntry)
  required : List (List Char)
deriving DecidableEq, Repr

/-- The generated schema-time description fallback `Variable: <name>`. -/
def varDesc (name : List Char) : List Char := "Variable: ".toList ++ name

/-- `buildJSONSchema(variables)`. -/
def buildJSONSchema (vs : List Placeholder) : JSONSchema :=
  let properties := vs.foldl
    (fun acc v =>
      let desc :=
        match v.description with
        | some d => if jsTrim d ≠ [] then d else varDesc v.name
        | none => varDesc v.name
      objSet v.name ⟨desc⟩ acc)
    []
  let required := (vs.filter (fun v => !v.optional)).map (·.name)
  { properties := properties, required := required }

/-- `[\s\S]` prefix run used by `\s*` backtracking: the maximal
whitespace run. -/
def wsRun (cs : List Char) : List Char := cs.takeWhile wsChar

/-- After the closing `\n---` has been located: match `\s*\n` by
backtracking from the longest whitespace run, i.e. cut at the last `\n`
of the run; the rest (`[\s\S]*$`) is the body. -/
def innerClose (rest2 : List Char) : Option (List Char) :=
  let run := wsRun rest2
  match run.reverse.findIdx? (· = '\n') with
  | some j => some (rest2.drop (run.length - j))
  | none => none

/-- Lazy search (capture group 1 of `FRONTMATTER_PATTERN`) for the
earliest `\n---` whose following `\s*\n` can be completed; `acc` holds
the group-1 characters consumed so far, reversed. -/
def contSearch (acc : List Char) : List Char → Option (List Char × List Char)
  | [] => none
  | c :: t =>
    if c = '\n' ∧ t.take 3 = ['-', '-', '-'] then
      match innerClose (t.drop 3) with
      | some body => some (acc.reverse, body)
      | none => contSearch (c :: acc) t
    else contSearch (c :: acc) t

/-- Backtracking candidates for the opening `---\s*\n`: every `\n`
position inside the maximal whitespace run, longest-first. -/
def fmCandidates (rest : List Char) : List Nat :=
  let run := wsRun rest
  ((List.range run.length).filter (fun e => run[e]? = some '\n')).reverse

/-- First success of `f` over a list (regex backtracking order). -/
def firstSome (f : α → Option β) : List α → Option β
  | [] => none
  | a :: t =>
    match f a with
    | some b => some b
    | none => firstSome f t

/-- `content.match(FRONTMATTER_PATTERN)` for
`FRONTMATTER_PATTERN = /^---\s*\n([\s\S]*?)\n---\s*\n([\s\S]*)$/`:
returns (group 1 = yaml region, group 2 = body) when the pattern
matches. -/
def frontmatterMatch (content : List Char) : Option (List Char × List Char) :=
  match content with
  | '-' :: '-' :: '-' :: rest =>
    firstSome (fun e => contSearch [] (rest.drop (e + 1))) (fmCandidates rest)
  | _ => none

/-- A scalar value as returned by the external YAML library. -/
inductive YamlVal where
  | str (s : List Char)
  | int (n : Int)
  | bool (b : Bool)
  | null
deriving DecidableEq, Repr

/-- JS `String(value)` on a YAML scalar. -/
def yamlValToString : YamlVal → List Char
  | .str s => s
  | .int n => (toString n).toList
  | .bool true => "true".toList
  | .bool false => "false".toList
  | .null => "null".toList

/-- Model of the external `YAML.parse`: `error` = exception thrown,
`ok none` = `null` or a non-object value, `ok (some entries)` = an
object, entries in insertion order. -/
abbrev YamlOracle := List Char → Except Unit (Option (List (List Char × YamlVal)))

/-- `parseYAMLSafely(yamlContent)`: catch exceptions (log, return `{}`),
reject non-objects, coerce every value with `String(...)`, strip a
trailing `?` from a key into `optional = true`, and rebuild the object
with `Object.fromEntries` (later duplicate keys overwrite). -/
def parseYAMLSafely (oracle : YamlOracle) (yamlContent : List Char) : FM :=
  match oracle yamlContent with
  | .error _ => []
  | .ok none => []
  | .ok (some entries) =>
    let processed := entries.map fun kv =>
      let isOptional := kv.1.getLast? = some '?'
      let cleanKey := if isOptional then kv.1.dropLast else kv.1
      (cleanKey, FMEntry.mk (yamlValToString kv.2) isOptional)
    processed.foldl (fun acc kv => objSet kv.1 kv.2 acc) []

/-- `extractFrontmatter(content)`. -/
def extractFrontmatter (oracle : YamlOracle) (content : List Char) :
    FM × List Char :=
  match frontmatterMatch content with
  | none => ([], content)
  | some (yamlContent, bodyContent) =>
    (parseYAMLSafely oracle yamlContent, bodyContent)

/-- `ParsedTemplate` of `types.ts` (plus the `warned` diagnostic bit). -/
structure ParsedTemplate where
  ast : List ASTNode
  vars : List Placeholder
  template : List Char
  inputSchema : JSONSchema
  warned : Bool

/-- `parseTemplate(content)` — the compile entry point. -/
def parseTemplate (oracle : YamlOracle) (content : List Char) : ParsedTemplate :=
  let fb := extractFrontmatter oracle content
  let r := buildASTFromBody fb.2 fb.1
  { ast := r.ast, vars := r.vars, template := content,
    inputSchema := buildJSONSchema r.vars, warned := r.warned }

/-- The render-time value mapping `Record<string, string>` as a query
function. -/
abbrev VMap := List Char → Option (List Char)

/-- The `#{name}` round-trip fallback text emitted for a missing key. -/
def markerText (name : List Char) : List Char := '#' :: '{' :: (name ++ ['}'])

mutual
/-- `renderNode` of `renderTemplate`. -/
def renderNode (m : VMap) : ASTNode → List Char
  | .text s => s
  | .block v cs =>
    (match m v with
     | none => []
     | some controlValue =>
       if controlValue = [] ∨ jsTrim controlValue = [] then []
       else renderList m cs)
  | .ph p =>
    let substitutedValue := m p.name
    if p.optional ∧ substitutedValue = some [] then []
    else substitutedValue.getD (markerText p.name)

/-- `node.content.map(renderNode).join('')`. -/
def renderList (m : VMap) : List ASTNode → List Char
  | [] => []
  | n :: t => renderNode m n ++ renderList m t
end

/-- `renderTemplate(parsed, variables)`. -/
def renderTemplate (parsed : ParsedTemplate) (m : VMap) : List Char :=
  renderList m parsed.ast

/-! ### Auxiliary notions used by the verification -/

/-- A YAML oracle that always throws, as `YAML.parse` does on malformed
header text such as a lone `{`. -/
def yamlErr : YamlOracle := fun _ => .error ()

/-- The empty render-time value mapping (`{}`). -/
def emptyVals : VMap := fun _ => none

/-- A list of AST nodes consisting of literal text nodes only. -/
def isTextList (l : List ASTNode) : Prop :=
  ∀ n ∈ l, ∃ s, n = ASTNode.text s

/-- Concatenation of the literal text carried by a list of text nodes. -/
def litConcat (l : List ASTNode) : List Char :=
  l.flatMap fun n =>
    match n with
    | .text s => s
    | _ => []

/-- The characters covered by a tokenization's matches together with
their preceding text slices. -/
def msFlat (ms : List (List Char × Mark)) : List Char :=
  ms.flatMap fun pm => pm.1 ++ pm.2.full

/-- All characters covered by a tokenization result. -/
def msFlatTrail (r : List (List Char × Mark) × List Char) : List Char :=
  msFlat r.1 ++ r.2

/-- The text nodes a literal-only loop iteration appends for one match. -/
def textNodes (pm : List Char × Mark) : List ASTNode :=
  (if pm.1 ≠ [] then [ASTNode.text pm.1] else []) ++ [ASTNode.text pm.2.full]

/-! ### Association list lemmas -/

theorem alookup_append (v : List Char) (a b : List (List Char × α)) :
    alookup v (a ++ b) =
      match alookup v a with
      | some p => some p
      | none => alookup v b := by
  induction a with
  | nil => simp [alookup]
  | cons hd t ih =>
    obtain ⟨k, p⟩ := hd
    by_cases hk : k = v <;> simp [alookup, hk, ih]

theorem alookup_some_mem {v : List Char} {p : α} {l : List (List Char × α)}
    (h : alookup v l = some p) : (v, p) ∈ l := by
  induction l with
  | nil => simp [alookup] at h
  | cons hd t ih =>
    obtain ⟨k, q⟩ := hd
    by_cases hk : k = v
    · simp [alookup, hk] at h
      simp [hk, h]
    · simp [alookup, hk] at h
      exact List.mem_cons_of_mem _ (ih h)

theorem alookup_none_keys {v : List Char} {l : List (List Char × α)}
    (h : alookup v l = none) : v ∉ l.map Prod.fst := by
  induction l with
  | nil => simp
  | cons hd t ih =>
    obtain ⟨k, q⟩ := hd
    by_cases hk : k = v
    · simp [alookup, hk] at h
    · simp only [alookup, if_neg hk] at h
      intro hm
      simp only [List.map_cons] at hm
      rcases List.mem_cons.mp hm with h1 | h2
      · exact hk h1.symm
      · exact ih h h2

theorem mem_alookup_of_nodup {v : List Char} {p : α} {l : List (List Char × α)}
    (hnd : (l.map Prod.fst).Nodup) (hm : (v, p) ∈ l) : alookup v l = some p := by
  induction l with
  | nil => simp at hm
  | cons hd t ih =>
    obtain ⟨k, q⟩ := hd
    simp only [List.map_cons, List.nodup_cons] at hnd
    rcases List.mem_cons.mp hm with h1 | h2
    · cases h1
      simp [alookup]
    · have hk : k ≠ v := by
        intro e
        have hv : v ∈ t.map Prod.fst := List.mem_map_of_mem Prod.fst h2
        exact hnd.1 (e ▸ hv)
      simp [alookup, hk, ih hnd.2 h2]

theorem alookup_singleton (v k : List Char) (p : α) :
    alookup v [(k, p)] = if k = v then some p else none := by
  simp [alookup]

/-! ### Shape of one loop iteration -/

theorem pushNode_length (st : List Frame) (n : ASTNode) :
    (pushNode st n).length = st.length := by
  cases st <;> simp [pushNode]

theorem handleBlockStart_seen (s : BuildState) (m : Mark) :
    (handleBlockStart s m).seen = s.seen := by
  unfold handleBlockStart
  dsimp only
  split <;> rfl

theorem handleBlockEnd_seen (s : BuildState) (m : Mark) :
    (handleBlockEnd s m).seen = s.seen ∨
    ∃ v q, alookup v s.seen = none ∧ Placeholder.name q = v ∧
      q.optional = true ∧ (handleBlockEnd s m).seen = s.seen ++ [(v, q)] := by
  unfold handleBlockEnd
  dsimp only
  split
  · split
    · left; rfl
    · split
      · left; rfl
      · split
        · rename_i v hv hcond hlook
          right
          exact ⟨v, _, hlook, rfl, rfl, rfl⟩
        · left; rfl
  · left; rfl

theorem handlePlaceholder_seen (s : BuildState) (m : Mark) :
    (handlePlaceholder s m).seen = s.seen ∨
    ∃ k q, alookup k s.seen = none ∧ Placeholder.name q = k ∧
      (handlePlaceholder s m).seen = s.seen ++ [(k, q)] := by
  unfold handlePlaceholder
  dsimp only
  split
  · left; rfl
  · split
    · left; rfl
    · split
      · rename_i hlook
        right
        exact ⟨jsTrim m.name, _, hlook, rfl, rfl⟩
      · left; rfl

theorem step_seen_shape (s : BuildState) (pm : List Char × Mark) :
    (step s pm).seen = s.seen ∨
    ∃ k q, alookup k s.seen = none ∧ Placeholder.name q = k ∧
      (step s pm).seen = s.seen ++ [(k, q)] := by
  unfold step
  have hpre : ∀ s2 : BuildState, s2.seen = s.seen →
      (if pm.2.pre = some '?' then handleBlockStart s2 pm.2
       else if pm.2.pre = some '/' then handleBlockEnd s2 pm.2
       else handlePlaceholder s2 pm.2).seen = s.seen ∨
      ∃ k q, alookup k s.seen = none ∧ Placeholder.name q = k ∧
        (if pm.2.pre = some '?' then handleBlockStart s2 pm.2
         else if pm.2.pre = some '/' then handleBlockEnd s2 pm.2
         else handlePlaceholder s2 pm.2).seen = s.seen ++ [(k, q)] := by
    intro s2 h2
    split
    · left; rw [handleBlockStart_seen, h2]
    · split
      · rcases handleBlockEnd_seen s2 pm.2 with h | ⟨v, q, h1, h2q, h3, h4⟩
        · left; rw [h, h2]
        · right; exact ⟨v, q, h2 ▸ h1, h2q, h2 ▸ h4⟩
      · rcases handlePlaceholder_seen s2 pm.2 with h | ⟨k, q, h1, h2q, h4⟩
        · left; rw [h, h2]
        · right; exact ⟨k, q, h2 ▸ h1, h2q, h2 ▸ h4⟩
  split
  · exact hpre _ rfl
  · exact hpre _ rfl

/-! ### Monotonicity of `seenVariables` along the scan -/

theorem step_seen_nil {s : BuildState} {pm : List Char × Mark}
    (h : (step s pm).seen = []) : s.seen = [] := by
  rcases step_seen_shape s pm with he | ⟨k, q, _, _, he⟩
  · rw [he] at h; exact h
  · rw [he] at h
    rcases List.append_eq_nil.mp h with ⟨_, hq⟩
    cases hq

theorem foldl_seen_nil (ms : List (List Char × Mark)) :
    ∀ s : BuildState, ((ms.foldl step s)).seen = [] → s.seen = [] := by
  induction ms with
  | nil => intro s h; exact h
  | cons pm t ih =>
    intro s h
    exact step_seen_nil (ih (step s pm) h)

theorem step_alookup_persist {v : List Char} {p : Placeholder}
    (s : BuildState) (pm : List Char × Mark)
    (h : alookup v s.seen = some p) : alookup v (step s pm).seen = some p := by
  rcases step_seen_shape s pm with he | ⟨k, q, _, _, he⟩
  · rw [he]; exact h
  · rw [he, alookup_append, h]

theorem foldl_alookup_persist {v : List Char} {p : Placeholder}
    (ms : List (List Char × Mark)) :
    ∀ s : BuildState, alookup v s.seen = some p →
      alookup v ((ms.foldl step s)).seen = some p := by
  induction ms with
  | nil => intro s h; exact h
  | cons pm t ih =>
    intro s h
    exact ih (step s pm) (step_alookup_persist s pm h)

/-- Invariant of the `seenVariables` map: every entry's placeholder is
named after its key, and keys are unique. -/
def goodSeen (l : List (List Char × Placeholder)) : Prop :=
  (∀ kp ∈ l, Placeholder.name kp.2 = kp.1) ∧ (l.map Prod.fst).Nodup

theorem step_goodSeen (s : BuildState) (pm : List Char × Mark)
    (h : goodSeen s.seen) : goodSeen (step s pm).seen := by
  rcases step_seen_shape s pm with he | ⟨k, q, hlook, hname, he⟩
  · rw [he]; exact h
  · rw [he]
    constructor
    · intro kp hkp
      rcases List.mem_append.mp hkp with hm | hm
      · exact h.1 kp hm
      · rcases List.mem_singleton.mp hm with rfl
        exact hname
    · rw [List.map_append]
      refine List.Nodup.append h.2 (List.nodup_singleton k) ?_
      intro a ha hb
      rcases List.mem_singleton.mp hb with rfl
      exact alookup_none_keys hlook ha

theorem foldl_goodSeen (ms : List (List Char × Mark)) :
    ∀ s : BuildState, goodSeen s.seen → goodSeen ((ms.foldl step s)).seen := by
  induction ms with
  | nil => intro s h; exact h
  | cons pm t ih =>
    intro s h
    exact ih (step s pm) (step_goodSeen s pm h)

/-! ### Stack length along the scan -/

theorem pushNode_ne_nil {st : List Frame} (h : st ≠ []) (n : ASTNode) :
    pushNode st n ≠ [] := by
  cases st with
  | nil => exact absurd rfl h
  | cons f fs => simp [pushNode]

theorem handleBlockStart_len (s : BuildState) (m : Mark) :
    s.stack.length ≤ (handleBlockStart s m).stack.length := by
  unfold handleBlockStart
  dsimp only
  split
  · rw [pushNode_length]
  · simp

/-- The placeholder registered when a block is closed. -/
def closePh (v : List Char) (fm : FM) : Placeholder :=
  { name := v, description := (alookup v fm).map (·.value),
    start := none, stop := none, optional := true }

theorem handleBlockEnd_cases (s : BuildState) (m : Mark) :
    handleBlockEnd s m = { s with stack := pushNode s.stack (ASTNode.text m.full) } ∨
    ∃ closed parent rest v,
      s.stack = closed :: parent :: rest ∧ closed.var = some v ∧
      ¬(jsTrim m.name ≠ [] ∧ jsTrim m.name ≠ v) ∧
      handleBlockEnd s m =
        { s with
          stack := pushNode (parent :: rest) (ASTNode.block v closed.content),
          seen :=
            if alookup v s.seen = none then s.seen ++ [(v, closePh v s.fm)]
            else s.seen } := by
  unfold handleBlockEnd
  dsimp only
  split
  · rename_i x closed parent rest hstack
    split
    · left; rfl
    · rename_i v hv
      split
      · left; rfl
      · rename_i hcond
        right
        refine ⟨closed, parent, rest, v, hstack, hv, hcond, ?_⟩
        unfold closePh
        split <;> rfl
  · left; rfl

/-- The placeholder built for a live plain `#{variable}` match. -/
def livePh (tn : List Char) (entry : FMEntry) (m : Mark) : Placeholder :=
  { name := tn, description := some entry.value,
    start := some m.start, stop := some m.stop,
    optional := m.opt || entry.optional }

theorem handlePlaceholder_cases (s : BuildState) (m : Mark) :
    handlePlaceholder s m = { s with stack := pushNode s.stack (ASTNode.text m.full) } ∨
    ∃ entry,
      jsTrim m.name ≠ [] ∧ alookup (jsTrim m.name) s.fm = some entry ∧
      handlePlaceholder s m =
        { s with
          stack := pushNode s.stack (ASTNode.ph (livePh (jsTrim m.name) entry m)),
          seen :=
            if alookup (jsTrim m.name) s.seen = none then
              s.seen ++ [(jsTrim m.name, livePh (jsTrim m.name) entry m)]
            else s.seen } := by
  unfold handlePlaceholder
  dsimp only
  split
  · left; rfl
  · rename_i htn
    rcases hfm : alookup (jsTrim m.name) s.fm with _ | entry
    · left
      rfl
    · right
      refine ⟨entry, htn, rfl, ?_⟩
      unfold livePh
      rfl

theorem handleBlockEnd_len (s : BuildState) (m : Mark)
    (h : (handleBlockEnd s m).seen = []) :
    (handleBlockEnd s m).stack.length = s.stack.length := by
  rcases handleBlockEnd_cases s m with he | ⟨closed, parent, rest, v, hstack, _, _, he⟩
  · rw [he]; exact pushNode_length _ _
  · exfalso
    rw [he] at h
    dsimp only at h
    split at h
    · rcases List.append_eq_nil.mp h with ⟨_, hq⟩
      cases hq
    · rename_i hlook
      rw [h] at hlook
      exact hlook rfl

theorem handleBlockEnd_stack_ne (s : BuildState) (m : Mark)
    (h : s.stack ≠ []) : (handleBlockEnd s m).stack ≠ [] := by
  rcases handleBlockEnd_cases s m with he | ⟨closed, parent, rest, v, hstack, _, _, he⟩
  · rw [he]; exact pushNode_ne_nil h _
  · rw [he]
    exact pushNode_ne_nil (List.cons_ne_nil parent rest) _

theorem handlePlaceholder_len (s : BuildState) (m : Mark) :
    (handlePlaceholder s m).stack.length = s.stack.length := by
  rcases handlePlaceholder_cases s m with he | ⟨entry, _, _, he⟩ <;>
    rw [he] <;> exact pushNode_length _ _

theorem handlePlaceholder_stack_ne (s : BuildState) (m : Mark)
    (h : s.stack ≠ []) : (handlePlaceholder s m).stack ≠ [] := by
  rcases handlePlaceholder_cases s m with he | ⟨entry, _, _, he⟩ <;>
    rw [he] <;> exact pushNode_ne_nil h _

theorem handleBlockStart_stack_ne (s : BuildState) (m : Mark)
    (h : s.stack ≠ []) : (handleBlockStart s m).stack ≠ [] := by
  unfold handleBlockStart
  dsimp only
  split
  · exact pushNode_ne_nil h _
  · simp

/-- The state after flushing the preceding text of one match. -/
def preFlush (s : BuildState) (pm : List Char × Mark) : BuildState :=
  if pm.1 ≠ [] then { s with stack := pushNode s.stack (ASTNode.text pm.1) } else s

theorem step_eq_dispatch (s : BuildState) (pm : List Char × Mark) :
    step s pm =
      if pm.2.pre = some '?' then handleBlockStart (preFlush s pm) pm.2
      else if pm.2.pre = some '/' then handleBlockEnd (preFlush s pm) pm.2
      else handlePlaceholder (preFlush s pm) pm.2 := rfl

theorem preFlush_seen (s : BuildState) (pm : List Char × Mark) :
    (preFlush s pm).seen = s.seen := by
  unfold preFlush
  split <;> rfl

theorem preFlush_fm (s : BuildState) (pm : List Char × Mark) :
    (preFlush s pm).fm = s.fm := by
  unfold preFlush
  split <;> rfl

theorem preFlush_len (s : BuildState) (pm : List Char × Mark) :
    (preFlush s pm).stack.length = s.stack.length := by
  unfold preFlush
  split
  · exact pushNode_length _ _
  · rfl

theorem preFlush_stack_ne (s : BuildState) (pm : List Char × Mark)
    (h : s.stack ≠ []) : (preFlush s pm).stack ≠ [] := by
  unfold preFlush
  split
  · exact pushNode_ne_nil h _
  · exact h

theorem step_len (s : BuildState) (pm : List Char × Mark)
    (h : (step s pm).seen = []) :
    s.stack.length ≤ (step s pm).stack.length := by
  rw [step_eq_dispatch] at h ⊢
  by_cases h1 : pm.2.pre = some '?'
  · rw [if_pos h1]
    calc s.stack.length = (preFlush s pm).stack.length := (preFlush_len s pm).symm
    _ ≤ _ := handleBlockStart_len _ _
  · rw [if_neg h1] at h ⊢
    by_cases h2 : pm.2.pre = some '/'
    · rw [if_pos h2] at h ⊢
      rw [handleBlockEnd_len _ _ h, preFlush_len]
    · rw [if_neg h2]
      rw [handlePlaceholder_len, preFlush_len]

theorem foldl_len (ms : List (List Char × Mark)) :
    ∀ s : BuildState, ((ms.foldl step s)).seen = [] →
      s.stack.length ≤ ((ms.foldl step s)).stack.length := by
  induction ms with
  | nil => intro s _; exact le_refl _
  | cons pm t ih =>
    intro s h
    have h1 : (step s pm).seen = [] := foldl_seen_nil t (step s pm) h
    exact le_trans (step_len s pm h1) (ih (step s pm) h)

theorem step_stack_ne_nil (s : BuildState) (pm : List Char × Mark)
    (h : s.stack ≠ []) : (step s pm).stack ≠ [] := by
  rw [step_eq_dispatch]
  have h2 := preFlush_stack_ne s pm h
  split
  · exact handleBlockStart_stack_ne _ _ h2
  · split
    · exact handleBlockEnd_stack_ne _ _ h2
    · exact handlePlaceholder_stack_ne _ _ h2

theorem foldl_stack_ne_nil (ms : List (List Char × Mark)) :
    ∀ s : BuildState, s.stack ≠ [] → ((ms.foldl step s)).stack ≠ [] := by
  induction ms with
  | nil => intro s h; exact h
  | cons pm t ih =>
    intro s h
    exact ih (step s pm) (step_stack_ne_nil s pm h)

/-! ### The scan covers the body exactly -/

theorem msFlatTrail_consText (c : Char) (r : List (List Char × Mark) × List Char) :
    msFlatTrail (consText c r) = c :: msFlatTrail r := by
  obtain ⟨ps, trail⟩ := r
  cases ps with
  | nil => simp [consText, msFlatTrail, msFlat]
  | cons hd t =>
    obtain ⟨p, m⟩ := hd
    simp [consText, msFlatTrail, msFlat]

theorem take_one_cons {cs : List Char} {c : Char} (h : cs.take 1 = [c]) :
    cs = c :: cs.drop 1 := by
  cases cs with
  | nil => simp at h
  | cons d t =>
    simp at h
    rw [h]
    rfl

theorem tokenizeF_reconstruct :
    ∀ (fuel i : Nat) (cs : List Char), cs.length < fuel →
      msFlatTrail (tokenizeF fuel i cs) = cs := by
  intro fuel
  induction fuel with
  | zero =>
    intro i cs h
    exact absurd h (by omega)
  | succ f ih =>
    intro i cs h
    cases cs with
    | nil => rfl
    | cons c cs1 =>
      rw [tokenizeF]
      by_cases hc : c = '#' ∧ cs1.take 1 = ['{']
      · rw [if_pos hc]
        obtain ⟨hc1, hc2⟩ := hc
        rcases htm : tryMarker (cs1.drop 1) with _ | ⟨pre, name, opt, n⟩
        · rw [msFlatTrail_consText,
              ih (i + 1) cs1 (by simp at h ⊢; omega)]
        · dsimp only
          have hrec := ih (i + 2 + n) ((cs1.drop 1).drop n)
            (by simp at h ⊢; omega)
          simp only [msFlatTrail, msFlat, List.flatMap_cons] at hrec ⊢
          rw [List.nil_append, List.append_assoc, hrec]
          simp only [List.cons_append]
          rw [List.take_append_drop, hc1, ← take_one_cons hc2]
      · rw [if_neg hc, msFlatTrail_consText,
            ih (i + 1) cs1 (by simp at h ⊢; omega)]

theorem tokenize_reconstruct (cs : List Char) :
    msFlatTrail (tokenize 0 cs) = cs :=
  tokenizeF_reconstruct (cs.length + 1) 0 cs (by omega)

/-! ### Rendering literal-only node lists -/

theorem renderList_text (m : VMap) (l : List ASTNode) (h : isTextList l) :
    renderList m l = litConcat l := by
  induction l with
  | nil => rfl
  | cons n t ih =>
    obtain ⟨s, rfl⟩ := h n (List.mem_cons_self n t)
    rw [renderList, ih (fun x hx => h x (List.mem_cons_of_mem _ hx))]
    simp [renderNode, litConcat]

theorem litConcat_append (a b : List ASTNode) :
    litConcat (a ++ b) = litConcat a ++ litConcat b := by
  simp [litConcat]

theorem isTextList_append {a b : List ASTNode}
    (ha : isTextList a) (hb : isTextList b) : isTextList (a ++ b) := by
  intro n hn
  rcases List.mem_append.mp hn with hm | hm
  · exact ha n hm
  · exact hb n hm

theorem litConcat_textNodes (pm : List Char × Mark) :
    litConcat (textNodes pm) = pm.1 ++ pm.2.full := by
  unfold textNodes
  split
  · simp [litConcat]
  · rename_i hp
    simp at hp
    simp [litConcat, hp]

theorem isTextList_textNodes (pm : List Char × Mark) :
    isTextList (textNodes pm) := by
  unfold textNodes
  split <;> intro n hn
  · rcases List.mem_append.mp hn with hm | hm
    · exact ⟨pm.1, by rcases List.mem_singleton.mp hm with rfl; rfl⟩
    · exact ⟨pm.2.full, by rcases List.mem_singleton.mp hm with rfl; rfl⟩
  · simp at hn
    exact ⟨pm.2.full, by rw [hn]⟩

theorem isTextList_flatMap_textNodes (ms : List (List Char × Mark)) :
    isTextList (ms.flatMap textNodes) := by
  intro n hn
  rcases List.mem_flatMap.mp hn with ⟨pm, _, hmem⟩
  exact isTextList_textNodes pm n hmem

theorem litConcat_flatMap_textNodes (ms : List (List Char × Mark)) :
    litConcat (ms.flatMap textNodes) = msFlat ms := by
  induction ms with
  | nil => rfl
  | cons pm t ih =>
    rw [List.flatMap_cons, litConcat_append, litConcat_textNodes, ih]
    simp [msFlat]

/-! ### Steps that only push literal text -/

theorem preFlush_singleton (s : BuildState) (pm : List Char × Mark) (f : Frame)
    (hs : s.stack = [f]) :
    preFlush s pm =
      { s with stack :=
          [{ f with content :=
              f.content ++ (if pm.1 ≠ [] then [ASTNode.text pm.1] else []) }] } := by
  unfold preFlush
  by_cases hp : pm.1 = []
  · rw [if_neg (by simpa using hp), if_neg (by simpa using hp)]
    cases s
    simp at hs
    simp [hs]
  · rw [if_pos hp, if_pos hp, hs]
    simp [pushNode]

theorem handleBlockEnd_singleton (s : BuildState) (m : Mark) (f : Frame)
    (hs : s.stack = [f]) :
    handleBlockEnd s m = { s with stack := pushNode s.stack (ASTNode.text m.full) } := by
  rcases handleBlockEnd_cases s m with he | ⟨closed, parent, rest, v, hstack, _, _, _⟩
  · exact he
  · rw [hs] at hstack
    simp at hstack

theorem step_literal (f : Frame) (pm : List Char × Mark)
    (hnb : ¬(pm.2.pre = some '?' ∧ jsTrim pm.2.name ≠ [])) :
    step ⟨[], [f], []⟩ pm =
      ⟨[], [{ f with content := f.content ++ textNodes pm }], []⟩ := by
  rw [step_eq_dispatch,
      preFlush_singleton ⟨[], [f], []⟩ pm f rfl]
  set g : Frame :=
    { f with content := f.content ++ (if pm.1 ≠ [] then [ASTNode.text pm.1] else []) }
  have hgoal : ∀ n : ASTNode, n = ASTNode.text pm.2.full →
      ({ fm := [], stack := pushNode [g] n, seen := [] } : BuildState) =
      ⟨[], [{ f with content := f.content ++ textNodes pm }], []⟩ := by
    intro n hn
    rw [hn]
    simp [pushNode, textNodes, g]
  by_cases h1 : pm.2.pre = some '?'
  · rw [if_pos h1]
    unfold handleBlockStart
    dsimp only
    have htn : jsTrim pm.2.name = [] := by
      by_contra hne
      exact hnb ⟨h1, hne⟩
    rw [if_pos htn]
    exact hgoal _ rfl
  · rw [if_neg h1]
    by_cases h2 : pm.2.pre = some '/'
    · rw [if_pos h2]
      rw [handleBlockEnd_singleton _ _ g rfl]
      exact hgoal _ rfl
    · rw [if_neg h2]
      unfold handlePlaceholder
      dsimp only
      by_cases htn : jsTrim pm.2.name = []
      · rw [if_pos htn]
        exact hgoal _ rfl
      · rw [if_neg htn]
        have : alookup (jsTrim pm.2.name) ([] : FM) = none := rfl
        rw [this]
        exact hgoal _ rfl

theorem fold_literal (ms : List (List Char × Mark)) :
    ∀ f : Frame,
      (∀ pm ∈ ms, ¬(pm.2.pre = some '?' ∧ jsTrim pm.2.name ≠ [])) →
      ms.foldl step ⟨[], [f], []⟩ =
        ⟨[], [{ f with content := f.content ++ ms.flatMap textNodes }], []⟩ := by
  induction ms with
  | nil =>
    intro f _
    simp
  | cons pm t ih =>
    intro f hnb
    rw [List.foldl_cons,
        step_literal f pm (hnb pm (List.mem_cons_self pm t)),
        ih _ (fun x hx => hnb x (List.mem_cons_of_mem _ hx))]
    simp

theorem step_singleton_inv (s : BuildState) (pm : List Char × Mark) (f : Frame)
    (hs : s.stack = [f]) (hlen : (step s pm).stack.length = 1)
    (hseen : (step s pm).seen = []) :
    step s pm = ⟨s.fm, [{ f with content := f.content ++ textNodes pm }], s.seen⟩ := by
  have hs0 : s.seen = [] := step_seen_nil hseen
  rw [step_eq_dispatch] at hlen hseen ⊢
  rw [preFlush_singleton s pm f hs] at hlen hseen ⊢
  set g : Frame :=
    { f with content := f.content ++ (if pm.1 ≠ [] then [ASTNode.text pm.1] else []) }
    with hg
  have hgoal : ∀ n : ASTNode, n = ASTNode.text pm.2.full →
      ({ fm := s.fm, stack := pushNode [g] n, seen := s.seen } : BuildState) =
      ⟨s.fm, [{ f with content := f.content ++ textNodes pm }], s.seen⟩ := by
    intro n hn
    rw [hn]
    simp [pushNode, textNodes, g]
  by_cases h1 : pm.2.pre = some '?'
  · rw [if_pos h1] at hlen ⊢
    unfold handleBlockStart at hlen ⊢
    dsimp only at hlen ⊢
    by_cases htn : jsTrim pm.2.name = []
    · rw [if_pos htn]
      exact hgoal _ rfl
    · rw [if_neg htn] at hlen
      simp at hlen
  · rw [if_neg h1] at hlen hseen ⊢
    by_cases h2 : pm.2.pre = some '/'
    · rw [if_pos h2]
      rw [handleBlockEnd_singleton _ _ g rfl]
      exact hgoal _ rfl
    · rw [if_neg h2] at hlen hseen ⊢
      unfold handlePlaceholder at hseen ⊢
      dsimp only at hseen ⊢
      by_cases htn : jsTrim pm.2.name = []
      · rw [if_pos htn]
        exact hgoal _ rfl
      · rw [if_neg htn] at hseen ⊢
        rcases hfm : alookup (jsTrim pm.2.name) s.fm with _ | entry
        · exact hgoal _ rfl
        · rw [hfm, hs0] at hseen
          simp [alookup] at hseen

theorem fold_singleton_inv (ms : List (List Char × Mark)) :
    ∀ (s : BuildState) (f : Frame), s.stack = [f] →
      ((ms.foldl step s)).seen = [] → ((ms.foldl step s)).stack.length = 1 →
      ms.foldl step s =
        ⟨s.fm, [{ f with content := f.content ++ ms.flatMap textNodes }], s.seen⟩ := by
  induction ms with
  | nil =>
    intro s f hs _ _
    cases s
    simp at hs
    simp [hs]
  | cons pm t ih =>
    intro s f hs hseen hlen
    rw [List.foldl_cons] at hseen hlen ⊢
    have h1 : (step s pm).seen = [] := foldl_seen_nil t (step s pm) hseen
    have hne : (step s pm).stack ≠ [] :=
      step_stack_ne_nil s pm (by rw [hs]; exact List.cons_ne_nil f [])
    have hlen1 : (step s pm).stack.length = 1 := by
      have hle := foldl_len t (step s pm) hseen
      rw [hlen] at hle
      have := List.length_pos.mpr hne
      omega
    have hstep := step_singleton_inv s pm f hs hlen1 h1
    rw [hstep] at hseen hlen ⊢
    have := ih ⟨s.fm, [{ f with content := f.content ++ textNodes pm }], s.seen⟩
      { f with content := f.content ++ textNodes pm } rfl hseen hlen
    rw [this]
    simp

/-! ### From the scan state to the compile result -/

theorem scanState_seen (body : List Char) (fm : FM) :
    (scanState body fm).seen =
      ((tokenize 0 body).1.foldl step (initState fm)).seen := by
  unfold scanState
  dsimp only
  split <;> rfl

theorem scanState_len (body : List Char) (fm : FM) :
    (scanState body fm).stack.length =
      ((tokenize 0 body).1.foldl step (initState fm)).stack.length := by
  unfold scanState
  dsimp only
  split
  · exact pushNode_length _ _
  · rfl

theorem scanState_stack_ne_nil (body : List Char) (fm : FM) :
    (scanState body fm).stack ≠ [] := by
  unfold scanState
  dsimp only
  have h : ((tokenize 0 body).1.foldl step (initState fm)).stack ≠ [] :=
    foldl_stack_ne_nil _ _ (by unfold initState; exact List.cons_ne_nil _ _)
  split
  · exact pushNode_ne_nil h _
  · exact h

theorem buildAST_stack_singleton (body : List Char) (fm : FM) (f : Frame)
    (h : (scanState body fm).stack = [f]) :
    buildASTFromBody body fm =
      ⟨f.content, (scanState body fm).seen.map (·.2), false⟩ := by
  unfold buildASTFromBody
  dsimp only
  rw [h]
  simp [lastFrame]

/-- The AST produced for a body whose scan stays on the root frame and
registers no variable: the tokenization's text slices and raw markers,
in order. -/
def textAst (body : List Char) : List ASTNode :=
  (tokenize 0 body).1.flatMap textNodes ++
    (if (tokenize 0 body).2 ≠ [] then [ASTNode.text (tokenize 0 body).2] else [])

theorem buildAST_textOnly (body : List Char) (fm : FM)
    (hseen : ((tokenize 0 body).1.foldl step (initState fm)).seen = [])
    (hlen : ((tokenize 0 body).1.foldl step (initState fm)).stack.length = 1) :
    buildASTFromBody body fm = ⟨textAst body, [], false⟩ := by
  have hfold := fold_singleton_inv (tokenize 0 body).1 (initState fm) ⟨none, []⟩
    rfl hseen hlen
  have hscan : scanState body fm = ⟨fm, [⟨none, textAst body⟩], []⟩ := by
    unfold scanState
    dsimp only
    rw [hfold]
    unfold textAst
    split
    · rename_i ht
      simp [pushNode, initState, ht]
    · rename_i ht
      simp [initState, ht]
  rw [buildAST_stack_singleton body fm ⟨none, textAst body⟩ (by rw [hscan])]
  rw [hscan]
  rfl

theorem isTextList_textAst (body : List Char) : isTextList (textAst body) := by
  unfold textAst
  refine isTextList_append (isTextList_flatMap_textNodes _) ?_
  split
  · intro n hn
    rcases List.mem_singleton.mp hn with rfl
    exact ⟨_, rfl⟩
  · intro n hn
    simp at hn

theorem renderList_textAst (m : VMap) (body : List Char) :
    renderList m (textAst body) = body := by
  rw [renderList_text m _ (isTextList_textAst body)]
  unfold textAst
  rw [litConcat_append, litConcat_flatMap_textNodes]
  have hrec := tokenize_reconstruct body
  unfold msFlatTrail at hrec
  split
  · rename_i ht
    simpa [litConcat] using hrec
  · rename_i ht
    push_neg at ht
    rw [ht] at hrec
    simpa [litConcat] using hrec

/-! ### Concrete documents used by counterexamples and witnesses -/

/-- The body text of the form `#\x7b?a\x7dx#\x7b/a\x7d` (a complete
conditional block with no header). -/
def c1FailDoc : List Char := ['#', '{', '?', 'a', '}', 'x', '#', '{', '/', 'a', '}']

/-- The body text `Hi #\x7bx\x7d!` (one undeclared plain marker, no
header). -/
def c1OkDoc : List Char := ['H', 'i', ' ', '#', '{', 'x', '}', '!']

/-- The body text `A#\x7b?a\x7dB` (an unclosed block with text on both
sides). -/
def c8FailDoc : List Char := ['A', '#', '{', '?', 'a', '}', 'B']

/-- The body text `x#\x7b/a\x7dy` (a stray close marker at root level). -/
def c8OkDoc : List Char := ['x', '#', '{', '/', 'a', '}', 'y']

/-- A value mapping with `n` blank (whitespace only) and `y` non-blank. -/
def c3Map : VMap := fun k =>
  if k = ['n'] then some [' '] else if k = ['y'] then some ['1'] else none

/-- A value mapping with `t` bound to the empty string and `u` absent. -/
def c4Map : VMap := fun k => if k = ['t'] then some [] else none

/-- The body text `#\x7b?a\x7dx` (one unclosed block). -/
def c5Doc : List Char := ['#', '{', '?', 'a', '}', 'x']

/-- The body text `#\x7b?a\x7dx#\x7b/b\x7dy#\x7b/a\x7d` (a mismatched
close inside an `a` block). -/
def c6Doc : List Char :=
  ['#', '{', '?', 'a', '}', 'x', '#', '{', '/', 'b', '}', 'y',
   '#', '{', '/', 'a', '}']

/-- A value mapping binding only `a` (to a non-blank string). -/
def c6Map : VMap := fun k => if k = ['a'] then some ['1'] else none

/-- The document `---\n\x7b\n---\nBODY`: a well-formed header region
whose content `\x7b` makes the YAML parser throw. -/
def c2Doc : List Char :=
  ['-', '-', '-', '\n', '{', '\n', '-', '-', '-', '\n', 'B', 'O', 'D', 'Y']

/-- The body text `#\x7bx\x7d#\x7bx?\x7d` (the same declared name twice,
the second occurrence with the in-body optional override). -/
def c7Body : List Char := ['#', '{', 'x', '}', '#', '{', 'x', '?', '}']

/-- A header map declaring `x` (description `d`, not optional). -/
def c7FM : FM := [(['x'], ⟨['d'], false⟩)]

/-- The placeholder node built for the first occurrence of `x`. -/
def c7P1 : Placeholder := ⟨['x'], some ['d'], some 0, some 4, false⟩

/-- The placeholder node built for the second occurrence `#\x7bx?\x7d`. -/
def c7P2 : Placeholder := ⟨['x'], some ['d'], some 4, some 9, true⟩

/-- A header map declaring `a` (description `d`, not optional). -/
def c9FM : FM := [(['a'], ⟨['d'], false⟩)]

/-- The tokenization of `#\x7b?a\x7dx#\x7b/a\x7d`: the opening match. -/
def c9Open : List Char × Mark :=
  ([], { pre := some '?', name := ['a'], opt := false,
         full := ['#', '{', '?', 'a', '}'], start := 0, stop := 5 })

/-- The tokenization of `#\x7b?a\x7dx#\x7b/a\x7d`: the closing match,
preceded by the text `x`. -/
def c9Close : List Char × Mark :=
  (['x'], { pre := some '/', name := ['a'], opt := false,
            full := ['#', '{', '/', 'a', '}'], start := 6, stop := 11 })

/-! ### Claims -/

/-- C1, counterexample: the claim "for every document with no header
region, `compile` yields `vars = []` and every marker appears verbatim
in the render with no substitutions" is false: the header-less document
`#\x7b?a\x7dx#\x7b/a\x7d` compiles to a conditional block, registers the
synthesized variable `a` (so `vars ≠ []`), and renders to the empty
string under the empty mapping (no marker survives). -/
theorem compile_noHeader_counterexample :
    frontmatterMatch c1FailDoc = none ∧
    (parseTemplate yamlErr c1FailDoc).vars ≠ [] ∧
    renderTemplate (parseTemplate yamlErr c1FailDoc) emptyVals = [] :=
  ⟨by decide, by decide, by decide⟩

/-- C1 (amended): for every document with no header region whose body
contains no block-start marker with a non-empty trimmed name, `compile`
yields `vars = []` and rendering with no substitutions reproduces the
whole body (hence every marker) verbatim. -/
theorem compile_noHeader_noBlockMarkers (oracle : YamlOracle) (content : List Char)
    (hfm : frontmatterMatch content = none)
    (hnb : ∀ pm ∈ (tokenize 0 content).1,
      ¬(pm.2.pre = some '?' ∧ jsTrim pm.2.name ≠ [])) :
    (parseTemplate oracle content).vars = [] ∧
    renderTemplate (parseTemplate oracle content) emptyVals = content := by
  have hex : extractFrontmatter oracle content = ([], content) := by
    unfold extractFrontmatter
    rw [hfm]
  have hfold := fold_literal (tokenize 0 content).1 ⟨none, []⟩ hnb
  have hseen : ((tokenize 0 content).1.foldl step (initState [])).seen = [] := by
    rw [show initState ([] : FM) = (⟨[], [⟨none, []⟩], []⟩ : BuildState) from rfl,
        hfold]
  have hlen : ((tokenize 0 content).1.foldl step (initState [])).stack.length = 1 := by
    rw [show initState ([] : FM) = (⟨[], [⟨none, []⟩], []⟩ : BuildState) from rfl,
        hfold]
    rfl
  have hbuild := buildAST_textOnly content [] hseen hlen
  unfold parseTemplate
  rw [hex]
  dsimp only
  rw [hbuild]
  exact ⟨rfl, renderList_textAst emptyVals content⟩

/-- C1 witness: the amended statement at the concrete header-less
document `Hi #\x7bx\x7d!`. -/
theorem compile_noHeader_noBlockMarkers_witness :
    (parseTemplate yamlErr c1OkDoc).vars = [] ∧
    renderTemplate (parseTemplate yamlErr c1OkDoc) emptyVals = c1OkDoc :=
  compile_noHeader_noBlockMarkers yamlErr c1OkDoc (by decide) (by decide)

/-- C8, counterexample: the claim "whenever the compiled template has
`vars = []`, rendering with the empty mapping reproduces the body" is
false: `A#\x7b?a\x7dB` has `vars = []` but an unclosed block, and the
literal-reconstruction fallback reorders the text to `#\x7b?a\x7dBA`. -/
theorem render_compile_noVars_counterexample :
    (parseTemplate yamlErr c8FailDoc).vars = [] ∧
    (parseTemplate yamlErr c8FailDoc).warned = true ∧
    (extractFrontmatter yamlErr c8FailDoc).2 = c8FailDoc ∧
    renderTemplate (parseTemplate yamlErr c8FailDoc) emptyVals =
      ['#', '{', '?', 'a', '}', 'B', 'A'] ∧
    renderTemplate (parseTemplate yamlErr c8FailDoc) emptyVals ≠
      (extractFrontmatter yamlErr c8FailDoc).2 :=
  ⟨by decide, by decide, by decide, by decide, by decide⟩

/-- C8 (amended): for every document whose compiled template has
`vars = []` and no unclosed-block warning, rendering the compiled
template with the empty mapping equals the document's body text. -/
theorem render_compile_noVars_noWarn_identity (oracle : YamlOracle)
    (content : List Char)
    (hv : (parseTemplate oracle content).vars = [])
    (hw : (parseTemplate oracle content).warned = false) :
    renderTemplate (parseTemplate oracle content) emptyVals =
      (extractFrontmatter oracle content).2 := by
  unfold parseTemplate at hv hw ⊢
  dsimp only at hv hw ⊢
  have hseen1 : (scanState (extractFrontmatter oracle content).2
      (extractFrontmatter oracle content).1).seen = [] := by
    exact List.map_eq_nil_iff.mp hv
  have hwarn : (scanState (extractFrontmatter oracle content).2
      (extractFrontmatter oracle content).1).stack.length - 1 = 0 := by
    simp only [buildASTFromBody] at hw
    simp at hw
    omega
  have hlen1 : (scanState (extractFrontmatter oracle content).2
      (extractFrontmatter oracle content).1).stack.length = 1 := by
    have hne := scanState_stack_ne_nil (extractFrontmatter oracle content).2
      (extractFrontmatter oracle content).1
    have := List.length_pos.mpr hne
    omega
  have hseen : (((tokenize 0 (extractFrontmatter oracle content).2).1).foldl step
      (initState (extractFrontmatter oracle content).1)).seen = [] := by
    rw [← scanState_seen]
    exact hseen1
  have hlen : (((tokenize 0 (extractFrontmatter oracle content).2).1).foldl step
      (initState (extractFrontmatter oracle content).1)).stack.length = 1 := by
    rw [← scanState_len]
    exact hlen1
  rw [buildAST_textOnly _ _ hseen hlen]
  exact renderList_textAst emptyVals _

/-- C8 witness: the amended statement at the concrete header-less
document `x#\x7b/a\x7dy` (vars empty, no warning). -/
theorem render_compile_noVars_noWarn_identity_witness :
    renderTemplate (parseTemplate yamlErr c8OkDoc) emptyVals =
      (extractFrontmatter yamlErr c8OkDoc).2 :=
  render_compile_noVars_noWarn_identity yamlErr c8OkDoc (by decide) (by decide)

/-- C3: a conditional block renders to nothing (including every nested
placeholder and block) when its control variable is absent or its value
trims to the empty string; otherwise it renders the concatenation of its
recursively rendered children. -/
theorem renderBlock_suppress_or_children (m : VMap) (v : List Char)
    (cs : List ASTNode) :
    ((m v = none ∨ ∃ val, m v = some val ∧ jsTrim val = []) →
      renderNode m (.block v cs) = []) ∧
    (∀ val, m v = some val → jsTrim val ≠ [] →
      renderNode m (.block v cs) = renderList m cs) := by
  constructor
  · intro h
    rcases h with h | ⟨val, hval, ht⟩
    · simp [renderNode, h]
    · simp [renderNode, hval, ht]
  · intro val hval htrim
    have hv0 : val ≠ [] := fun e => htrim (by rw [e]; rfl)
    simp [renderNode, hval, hv0, htrim]

/-- C3 witness: a block controlled by `n` (supplied as a blank string)
renders to nothing even though it contains a placeholder, and a block
controlled by `y` (supplied non-blank) renders its children. -/
theorem renderBlock_suppress_or_children_witness :
    renderNode c3Map (.block ['n']
        [ASTNode.text ['Q'], ASTNode.ph ⟨['q'], none, none, none, false⟩]) = [] ∧
    renderNode c3Map (.block ['y'] [ASTNode.text ['Q']]) =
      renderList c3Map [ASTNode.text ['Q']] :=
  ⟨(renderBlock_suppress_or_children c3Map ['n'] _).1
      (Or.inr ⟨[' '], by decide, by decide⟩),
   (renderBlock_suppress_or_children c3Map ['y'] _).2 ['1'] (by decide) (by decide)⟩

/-- C4: an optional placeholder supplied the empty string renders to the
empty string, and a placeholder whose name is absent from the mapping
renders the `#\x7bname\x7d` marker back out — which is not the empty
string. -/
theorem renderPlaceholder_optionalEmpty_absentMarker (m : VMap) (p : Placeholder) :
    (p.optional = true → m p.name = some [] → renderNode m (.ph p) = []) ∧
    (m p.name = none →
      renderNode m (.ph p) = markerText p.name ∧ renderNode m (.ph p) ≠ []) := by
  constructor
  · intro ho hv
    simp [renderNode, hv, ho]
  · intro hv
    constructor
    · simp [renderNode, hv]
    · simp [renderNode, hv, markerText]

/-- C4 witness: the statement at a concrete optional placeholder mapped
to the empty string and a concrete absent placeholder. -/
theorem renderPlaceholder_optionalEmpty_absentMarker_witness :
    renderNode c4Map (.ph ⟨['t'], none, none, none, true⟩) = [] ∧
    renderNode c4Map (.ph ⟨['u'], none, none, none, true⟩) =
      markerText ['u'] :=
  ⟨(renderPlaceholder_optionalEmpty_absentMarker c4Map
      ⟨['t'], none, none, none, true⟩).1 rfl (by decide),
   ((renderPlaceholder_optionalEmpty_absentMarker c4Map
      ⟨['u'], none, none, none, true⟩).2 (by decide)).1⟩

/-- C10: a non-optional placeholder supplied the empty string renders the
empty string (not the marker fallback); when a value is supplied, the
output is that value except for the optional-empty case; the
`#\x7bname\x7d` fallback arises exactly from an absent key, for optional
and non-optional placeholders alike. -/
theorem renderPlaceholder_requiredEmpty_fallbackOnlyAbsent (m : VMap)
    (p : Placeholder) :
    (p.optional = false → m p.name = some [] →
      renderNode m (.ph p) = [] ∧ renderNode m (.ph p) ≠ markerText p.name) ∧
    (∀ val, m p.name = some val →
      renderNode m (.ph p) = if p.optional ∧ val = [] then [] else val) ∧
    (m p.name = none → renderNode m (.ph p) = markerText p.name) := by
  refine ⟨?_, ?_, ?_⟩
  · intro ho hv
    constructor
    · simp [renderNode, hv, ho]
    · simp [renderNode, hv, ho, markerText]
  · intro val hv
    by_cases hcase : p.optional = true ∧ val = []
    · simp [renderNode, hv, hcase.1, hcase.2]
    · have : ¬(p.optional ∧ val = []) := by
        intro hpair
        exact hcase ⟨hpair.1, hpair.2⟩
      simp [renderNode, hv, this]
  · intro hv
    simp [renderNode, hv]

/-- C10 witness: the statement at a concrete non-optional placeholder
mapped to the empty string and one absent from the mapping. -/
theorem renderPlaceholder_requiredEmpty_fallbackOnlyAbsent_witness :
    renderNode c4Map (.ph ⟨['t'], none, none, none, false⟩) = [] ∧
    renderNode c4Map (.ph ⟨['u'], none, none, none, false⟩) =
      markerText ['u'] :=
  ⟨((renderPlaceholder_requiredEmpty_fallbackOnlyAbsent c4Map
      ⟨['t'], none, none, none, false⟩).1 rfl (by decide)).1,
   (renderPlaceholder_requiredEmpty_fallbackOnlyAbsent c4Map
      ⟨['u'], none, none, none, false⟩).2.2 (by decide)⟩

/-- C5: when the scan ends with open scopes, the compiler warns and the
AST is, for each still-open frame from innermost (stack top) to
outermost, a literal reconstruction of its opening marker followed by
its accumulated content, and the root frame's own content at the very
end. -/
theorem buildAST_unclosed_reconstruction (body : List Char) (fm : FM)
    (h : (scanState body fm).stack.length > 1) :
    (buildASTFromBody body fm).warned = true ∧
    (buildASTFromBody body fm).ast =
      ((scanState body fm).stack.dropLast.flatMap fun b =>
        (match b.var with
         | some v => [ASTNode.text (blockOpenMarker v)]
         | none => []) ++ b.content)
      ++ (lastFrame (scanState body fm).stack).content := by
  unfold buildASTFromBody
  dsimp only
  constructor
  · simp only [decide_eq_true_eq]
    omega
  · rw [if_pos (by omega)]

/-- C5 witness: the statement at the concrete body `#\x7b?a\x7dx`
(one unclosed block). -/
theorem buildAST_unclosed_reconstruction_witness :
    (buildASTFromBody c5Doc []).warned = true ∧
    (buildASTFromBody c5Doc []).ast =
      ((scanState c5Doc []).stack.dropLast.flatMap fun b =>
        (match b.var with
         | some v => [ASTNode.text (blockOpenMarker v)]
         | none => []) ++ b.content)
      ++ (lastFrame (scanState c5Doc []).stack).content :=
  buildAST_unclosed_reconstruction c5Doc [] (by decide)

/-- C6: a block-end marker is kept as literal text inside the current
innermost frame and no scope is closed in each of the three cases the
handler distinguishes: (a) no scope beyond the root is open (the stack
is the root frame alone), (b) the innermost open frame has no variable,
(c) the marker names a non-empty variable different from the innermost
frame's variable; concretely, compiling and rendering
`#\x7b?a\x7dx#\x7b/b\x7dy#\x7b/a\x7d` with `a` supplied leaves
`#\x7b/b\x7d` as literal text and the `a` scope is still closed by the
later `#\x7b/a\x7d` (no unclosed-block warning). -/
theorem blockEnd_mismatch_inert :
    (∀ (s : BuildState) (m : Mark) (f : Frame),
      s.stack = [f] →
      handleBlockEnd s m =
        { s with stack :=
            [{ f with content := f.content ++ [ASTNode.text m.full] }] }) ∧
    (∀ (s : BuildState) (m : Mark) (f g : Frame) (t : List Frame),
      s.stack = f :: g :: t → f.var = none →
      handleBlockEnd s m =
        { s with stack :=
            { f with content := f.content ++ [ASTNode.text m.full] } :: g :: t }) ∧
    (∀ (s : BuildState) (m : Mark) (f g : Frame) (t : List Frame) (v : List Char),
      s.stack = f :: g :: t → f.var = some v →
      jsTrim m.name ≠ [] → jsTrim m.name ≠ v →
      handleBlockEnd s m =
        { s with stack :=
            { f with content := f.content ++ [ASTNode.text m.full] } :: g :: t }) ∧
    renderTemplate (parseTemplate yamlErr c6Doc) c6Map =
      ['x', '#', '{', '/', 'b', '}', 'y'] ∧
    (parseTemplate yamlErr c6Doc).warned = false := by
  refine ⟨?_, ?_, ?_, by decide, by decide⟩
  · intro s m f hs
    rw [handleBlockEnd_singleton s m f hs, hs]
    simp [pushNode]
  · intro s m f g t hs hv
    unfold handleBlockEnd
    dsimp only
    rw [hs]
    dsimp only
    rw [hv]
    simp [pushNode]
    exact hv
  · intro s m f g t v hs hv h1 h2
    unfold handleBlockEnd
    dsimp only
    rw [hs]
    dsimp only
    rw [hv]
    dsimp only
    rw [if_pos ⟨h1, h2⟩]
    simp [pushNode]
    exact hv

/-- C6 witness: the handler-level statement applied at concrete states
for all three literal cases — a root-only stack, an innermost frame
without a variable, and an innermost frame controlled by `a` closed by a
concrete `#\x7b/b\x7d` end marker. -/
theorem blockEnd_mismatch_inert_witness :
    handleBlockEnd ⟨[], [⟨none, []⟩], []⟩
        { pre := some '/', name := ['b'], opt := false,
          full := ['#', '{', '/', 'b', '}'], start := 0, stop := 5 } =
      ⟨[], [⟨none, [ASTNode.text ['#', '{', '/', 'b', '}']]⟩], []⟩ ∧
    handleBlockEnd ⟨[], [⟨none, []⟩, ⟨none, []⟩], []⟩
        { pre := some '/', name := ['b'], opt := false,
          full := ['#', '{', '/', 'b', '}'], start := 0, stop := 5 } =
      ⟨[], [⟨none, [ASTNode.text ['#', '{', '/', 'b', '}']]⟩, ⟨none, []⟩], []⟩ ∧
    handleBlockEnd ⟨[], [⟨some ['a'], []⟩, ⟨none, []⟩], []⟩
        { pre := some '/', name := ['b'], opt := false,
          full := ['#', '{', '/', 'b', '}'], start := 0, stop := 5 } =
      ⟨[], [⟨some ['a'], [ASTNode.text ['#', '{', '/', 'b', '}']]⟩, ⟨none, []⟩], []⟩ := by
  refine ⟨?_, ?_, ?_⟩
  · have h := (blockEnd_mismatch_inert).1
      ⟨[], [⟨none, []⟩], []⟩
      { pre := some '/', name := ['b'], opt := false,
        full := ['#', '{', '/', 'b', '}'], start := 0, stop := 5 }
      ⟨none, []⟩ rfl
    simpa using h
  · have h := (blockEnd_mismatch_inert).2.1
      ⟨[], [⟨none, []⟩, ⟨none, []⟩], []⟩
      { pre := some '/', name := ['b'], opt := false,
        full := ['#', '{', '/', 'b', '}'], start := 0, stop := 5 }
      ⟨none, []⟩ ⟨none, []⟩ [] rfl rfl
    simpa using h
  · have h := (blockEnd_mismatch_inert).2.2.1
      ⟨[], [⟨some ['a'], []⟩, ⟨none, []⟩], []⟩
      { pre := some '/', name := ['b'], opt := false,
        full := ['#', '{', '/', 'b', '}'], start := 0, stop := 5 }
      ⟨some ['a'], []⟩ ⟨none, []⟩ [] ['a'] rfl rfl (by decide) (by decide)
    simpa using h

/-- C2, counterexample: the claim that on a YAML parse failure the
compiler proceeds with the ORIGINAL FULL document text as body (header
delimiters remaining literal) is false: for `---\n\x7b\n---\nBODY` with
a throwing YAML parser, the body is the text after the closing delimiter
(`BODY`), the delimiters are stripped, and the compiled AST contains
only `BODY`. -/
theorem yamlFailure_fullTextBody_counterexample :
    frontmatterMatch c2Doc = some (['{'], ['B', 'O', 'D', 'Y']) ∧
    extractFrontmatter yamlErr c2Doc = ([], ['B', 'O', 'D', 'Y']) ∧
    (extractFrontmatter yamlErr c2Doc).2 ≠ c2Doc ∧
    (parseTemplate yamlErr c2Doc).ast = [ASTNode.text ['B', 'O', 'D', 'Y']] := by
  refine ⟨by decide, by decide, by decide, ?_⟩
  rfl

/-- C2 (amended): when the document matches the header pattern and the
YAML parser throws on the header region, the failure is non-fatal
(logged) and compile proceeds with an empty header map and with the text
after the closing header delimiter as the body. -/
theorem yamlFailure_emptyHeader_bodyAfterDelimiter (oracle : YamlOracle)
    (content y b : List Char)
    (hm : frontmatterMatch content = some (y, b))
    (herr : oracle y = .error ()) :
    extractFrontmatter oracle content = ([], b) := by
  unfold extractFrontmatter parseYAMLSafely
  rw [hm]
  dsimp only
  rw [herr]

/-- C2 witness: the amended statement at the concrete document
`---\n\x7b\n---\nBODY` with the throwing YAML oracle. -/
theorem yamlFailure_emptyHeader_bodyAfterDelimiter_witness :
    extractFrontmatter yamlErr c2Doc = ([], ['B', 'O', 'D', 'Y']) :=
  yamlFailure_emptyHeader_bodyAfterDelimiter yamlErr c2Doc ['{']
    ['B', 'O', 'D', 'Y'] (by decide) rfl

/-- C7, counterexample: "later occurrences of a name reuse the first
occurrence's Placeholder (description and optionality)" is false: in
body `#\x7bx\x7d#\x7bx?\x7d` with `x` declared non-optional, the second
AST node carries `optional = true` while the first occurrence (and the
unique vars entry) carries `optional = false`. -/
theorem firstOccurrence_reuse_counterexample :
    (buildASTFromBody c7Body c7FM).ast = [ASTNode.ph c7P1, ASTNode.ph c7P2] ∧
    (buildASTFromBody c7Body c7FM).vars = [c7P1] ∧
    c7P2.name = c7P1.name ∧
    c7P2.optional ≠ c7P1.optional := by
  refine ⟨?_, by decide, by decide, by decide⟩
  rfl

/-- Rendering a placeholder node only depends on its name: the output is
the supplied value when present (the optional-empty case also returns
the value, which is empty), and the marker fallback when absent. -/
theorem renderNode_ph_eq_getD (m : VMap) (r : Placeholder) :
    renderNode m (.ph r) = (m r.name).getD (markerText r.name) := by
  simp only [renderNode]
  rcases hsv : m r.name with _ | val
  · simp
  · by_cases hval : val = []
    · subst hval
      by_cases hopt : r.optional = true
      · simp [hopt]
      · simp [hopt]
    · simp [hval]

/-- C7 (amended): the first occurrence of a name fixes its entry in the
unique-variables map for good (entries are never overwritten later), the
vars list has exactly one entry per name, and rendering a placeholder
node depends only on its name — so all occurrences of a name substitute
identically; each AST occurrence however carries its own optionality
flag (the claim's "reuse" fails, see the counterexample). -/
theorem firstOccurrence_fixesVars_rendersSame :
    (∀ (body : List Char) (fm : FM),
      ((buildASTFromBody body fm).vars.map (·.name)).Nodup) ∧
    (∀ (ms : List (List Char × Mark)) (s : BuildState) (v : List Char)
        (p : Placeholder),
      alookup v s.seen = some p → alookup v ((ms.foldl step s)).seen = some p) ∧
    (∀ (m : VMap) (p q : Placeholder), p.name = q.name →
      renderNode m (.ph p) = renderNode m (.ph q)) := by
  refine ⟨?_, fun ms s v p h => foldl_alookup_persist ms s h, ?_⟩
  · intro body fm
    have hg : goodSeen (scanState body fm).seen := by
      rw [scanState_seen]
      exact foldl_goodSeen _ (initState fm)
        ⟨fun kp hkp => absurd hkp (List.not_mem_nil kp), List.nodup_nil⟩
    have hv : (buildASTFromBody body fm).vars =
        (scanState body fm).seen.map (·.2) := rfl
    rw [hv, List.map_map]
    have hmaps : (scanState body fm).seen.map
        ((fun p : Placeholder => p.name) ∘ (fun kp => kp.2)) =
        (scanState body fm).seen.map Prod.fst :=
      List.map_congr_left (fun kp hkp => hg.1 kp hkp)
    rw [hmaps]
    exact hg.2
  · intro m p q hname
    rw [renderNode_ph_eq_getD, renderNode_ph_eq_getD, hname]

/-- C7 witness: the amended statement at the concrete body
`#\x7bx\x7d#\x7bx?\x7d` and its two (differently optional) placeholder
nodes, which nevertheless render identically. -/
theorem firstOccurrence_fixesVars_rendersSame_witness :
    ((buildASTFromBody c7Body c7FM).vars.map (·.name)).Nodup ∧
    renderNode c4Map (.ph c7P1) = renderNode c4Map (.ph c7P2) :=
  ⟨firstOccurrence_fixesVars_rendersSame.1 c7Body c7FM,
   firstOccurrence_fixesVars_rendersSame.2.2 c4Map c7P1 c7P2 rfl⟩

/-- C9: a variable first registered by the close of a conditional block
(no earlier registration) gets a vars entry with `optional = true` —
regardless of how the header declares it — and therefore never appears
in the generated schema's required list. -/
theorem blockClose_registersOptional_neverRequired
    (body : List Char) (fm : FM) (l r : List (List Char × Mark))
    (pm : List Char × Mark) (v : List Char)
    (hms : (tokenize 0 body).1 = l ++ pm :: r)
    (hpre : pm.2.pre = some '/')
    (hbefore : alookup v ((l.foldl step (initState fm))).seen = none)
    (hafter : alookup v (step (l.foldl step (initState fm)) pm).seen ≠ none) :
    ∃ p : Placeholder,
      alookup v (scanState body fm).seen = some p ∧
      p ∈ (buildASTFromBody body fm).vars ∧
      p.name = v ∧ p.optional = true ∧
      v ∉ (buildJSONSchema (buildASTFromBody body fm).vars).required := by
  have hd : step (l.foldl step (initState fm)) pm =
      handleBlockEnd (preFlush (l.foldl step (initState fm)) pm) pm.2 := by
    rw [step_eq_dispatch, if_neg (by rw [hpre]; simp), if_pos hpre]
  rw [hd] at hafter
  have hreg : ∃ p : Placeholder,
      p.name = v ∧ p.optional = true ∧
      alookup v (step (l.foldl step (initState fm)) pm).seen = some p := by
    rcases handleBlockEnd_cases (preFlush (l.foldl step (initState fm)) pm) pm.2
      with he | ⟨closed, parent, rest, w, hstack, hvw, hcond, he⟩
    · rw [he] at hafter
      have : alookup v ((l.foldl step (initState fm))).seen ≠ none := by
        simpa [preFlush_seen] using hafter
      exact absurd hbefore this
    · rw [he] at hafter
      by_cases hw : alookup w (preFlush (l.foldl step (initState fm)) pm).seen = none
      · rw [hd, he]
        dsimp only at hafter ⊢
        rw [if_pos hw] at hafter ⊢
        rw [preFlush_seen] at hafter ⊢
        rw [alookup_append] at hafter ⊢
        rw [hbefore] at hafter ⊢
        have hwv : w = v := by
          by_contra hne
          rw [alookup_singleton] at hafter
          rw [if_neg hne] at hafter
          exact hafter rfl
        subst hwv
        rw [alookup_singleton, if_pos rfl]
        exact ⟨closePh w (preFlush (l.foldl step (initState fm)) pm).fm,
          rfl, rfl, rfl⟩
      · rw [if_neg hw] at hafter
        have : alookup v ((l.foldl step (initState fm))).seen ≠ none := by
          simpa [preFlush_seen] using hafter
        exact absurd hbefore this
  obtain ⟨p, hname, hopt, hlookafter⟩ := hreg
  have hfold : alookup v (((tokenize 0 body).1).foldl step (initState fm)).seen =
      some p := by
    rw [hms, List.foldl_append, List.foldl_cons]
    exact foldl_alookup_persist r _ hlookafter
  have hscan : alookup v (scanState body fm).seen = some p := by
    rw [scanState_seen]
    exact hfold
  have hmem : (v, p) ∈ (scanState body fm).seen := alookup_some_mem hscan
  have hvarsEq : (buildASTFromBody body fm).vars =
      (scanState body fm).seen.map (·.2) := rfl
  have hvars : p ∈ (buildASTFromBody body fm).vars := by
    rw [hvarsEq]
    exact List.mem_map_of_mem _ hmem
  have hg : goodSeen (scanState body fm).seen := by
    rw [scanState_seen]
    exact foldl_goodSeen _ (initState fm)
      ⟨fun kp hkp => absurd hkp (List.not_mem_nil kp), List.nodup_nil⟩
  refine ⟨p, hscan, hvars, hname, hopt, ?_⟩
  intro hreq
  unfold buildJSONSchema at hreq
  dsimp only at hreq
  rcases List.mem_map.mp hreq with ⟨q, hqf, hqname⟩
  have hqmem : q ∈ (buildASTFromBody body fm).vars := (List.mem_filter.mp hqf).1
  have hqopt : q.optional = false := by
    have := (List.mem_filter.mp hqf).2
    simpa using this
  rw [hvarsEq] at hqmem
  rcases List.mem_map.mp hqmem with ⟨kp, hkpmem, hkp2⟩
  obtain ⟨k, q2⟩ := kp
  dsimp only at hkp2
  subst hkp2
  have hnk := hg.1 (k, q2) hkpmem
  dsimp only at hnk
  have hkey : k = v := by
    rw [← hnk, hqname]
  have hmem2 : (v, q2) ∈ (scanState body fm).seen := hkey ▸ hkpmem
  have hq : alookup v (scanState body fm).seen = some q2 :=
    mem_alookup_of_nodup hg.2 hmem2
  rw [hscan] at hq
  have hpq : p = q2 := by injection hq
  rw [← hpq] at hqopt
  rw [hopt] at hqopt
  cases hqopt

/-- C9 witness: the statement at the concrete body
`#\x7b?a\x7dx#\x7b/a\x7d` with `a` declared non-optional in the header:
the block close registers `a` as optional and `a` is not required. -/
theorem blockClose_registersOptional_neverRequired_witness :
    ∃ p : Placeholder,
      alookup ['a'] (scanState c1FailDoc c9FM).seen = some p ∧
      p ∈ (buildASTFromBody c1FailDoc c9FM).vars ∧
      p.name = ['a'] ∧ p.optional = true ∧
      ['a'] ∉ (buildJSONSchema (buildASTFromBody c1FailDoc c9FM).vars).required :=
  blockClose_registersOptional_neverRequired c1FailDoc c9FM [c9Open] []
    c9Close ['a'] (by decide) (by decide) (by decide) (by decide)

end CursorCmd
